import Mathlib

/-!
Shallow embedding of `src/groups.c` of libnss-sqlite3 (group entry retrieval
for an NSS module backed by SQLite), together with theorems settling the
frozen claims about its marshaling, cursor, growth and resource behaviour.

Modelling conventions:
* `enum nss_status` is the four-valued `NssStatus`; the only errno value the
  source ever stores through `errnop` is `ERANGE`, modelled as `Errno.erange`.
* The SQLite row source and the query provider are external collaborators
  (`utils.c` is not part of the analysed sources); their outcomes are injected
  through environment records (`queryOk`, `prepareOk`, `bindOk`, step results,
  row lists), so theorems quantify over every possible store behaviour.
* Buffer marshaling is modelled by an explicit list of write events
  (`Wr.byte` for one `char` of a `strcpy`, `Wr.slot` for one `char*` cell of
  the pointer table); `sizeof(char*)` is `ptrWidth = 8`.
* Resource and lock usage is modelled by event traces (`Ev`): an `openConn` /
  `prepareStmt` event is emitted when `sqlite3_open` / `sqlite3_prepare`
  succeeds, `closeConn` / `finalizeStmt` when `sqlite3_close` /
  `sqlite3_finalize` is called on a live handle.  `sqlite3_finalize(NULL)`
  after a failed prepare is a no-op and emits no event.
-/

namespace NssSqlite3

/-- The `enum nss_status` values used by `groups.c`. -/
inductive NssStatus where
  | success
  | notfound
  | unavail
  | tryagain
deriving DecidableEq, Repr

/-- The only `errno` value the source assigns through `errnop`. -/
inductive Errno where
  | erange
deriving DecidableEq, Repr

/-- Outcome of one `sqlite3_step` call: a row, normal exhaustion, or an
error code. -/
inductive StepRes where
  | row
  | done
  | error
deriving DecidableEq, Repr

/-- Modelled from the spec: `res2nss_status` lives in `utils.c`, which is not
among the analysed sources.  Per the spec's interface section, a fetched row
maps to `Success`, exhaustion (`SQLITE_DONE`) to the `NotFound`-style end
signal, and a store failure to `Unavailable`. -/
def res2nss_status : StepRes → NssStatus
  | .row => .success
  | .done => .notfound
  | .error => .unavail

/-- Resource and lock events, in the order the C code performs them. -/
inductive Ev where
  | openConn
  | closeConn
  | prepareStmt
  | finalizeStmt
  | lockM
  | unlockM
deriving DecidableEq, Repr

/-! ## The marshaling (packing) phase of `get_users` -/

/-- `sizeof(char*)` on the 64-bit target assumed throughout the spec. -/
def ptrWidth : Nat := 8

/-- One write event into the caller's buffer: `byte off b` writes the byte
`b` at absolute offset `off`; `slot i v` writes pointer value `v` (an
absolute offset into the same buffer, or `none` for `NULL`) into cell `i`
of the pointer table, which occupies offsets `[i*ptrWidth, (i+1)*ptrWidth)`. -/
inductive Wr where
  | byte (off : Nat) (b : Nat)
  | slot (i : Nat) (v : Option Nat)
deriving DecidableEq, Repr

/-- The byte writes of `strcpy(buffer + off, m)`: the characters of `m`
followed by the terminating NUL. -/
def strWrites : Nat → List Nat → List Wr
  | off, [] => [Wr.byte off 0]
  | off, b :: bs => Wr.byte off b :: strWrites (off + 1) bs

/-- Result of the packing loop: `ok = false` means the loop returned
`NSS_STATUS_TRYAGAIN` with `errno = ERANGE` midway; `writes` are the write
events performed (on failure, the writes of the members already copied —
the source leaves them in the buffer and the caller discards them). -/
structure PackOut where
  ok : Bool
  writes : List Wr
deriving DecidableEq, Repr

/-- The member-copy loop of `get_users` (`groups.c` lines 488–502): for each
member, check `buflen < strlen(members[i]) + 1` and fail with `ERANGE` on
shortfall, otherwise `strcpy` the name at `next_member`, store that address
into `ptr_area[i]`, and advance; after the loop, `ptr_area[i] = NULL`.
`i` is the next pointer-table index, `off` the value of
`next_member - buffer`, `rem` the remaining value of `buflen`. -/
def packLoop : Nat → Nat → Nat → List (List Nat) → PackOut
  | i, _, _, [] => ⟨true, [Wr.slot i none]⟩
  | i, off, rem, m :: ms =>
    if rem < m.length + 1 then ⟨false, []⟩
    else
      let p := packLoop (i + 1) (off + (m.length + 1)) (rem - (m.length + 1)) ms
      ⟨p.ok, strWrites off m ++ Wr.slot i (some off) :: p.writes⟩

/-- Injected behaviour of the external collaborators during one `get_users`
call: query-text lookup, statement preparation, parameter binding, whether
the first `sqlite3_step` reports an error, and the member-name rows the
statement delivers before reporting `SQLITE_DONE`. -/
structure GetUsersEnv where
  queryOk : Bool
  prepareOk : Bool
  bindOk : Bool
  stepErr : Bool
  rows : List (List Nat)
deriving DecidableEq, Repr

/-- Result of `get_users`: status, stored errno, buffer write events, and
resource events. -/
structure GURes where
  status : NssStatus
  errno : Option Errno
  writes : List Wr
  evs : List Ev
deriving DecidableEq, Repr

/-- Shallow embedding of `get_users` (`groups.c` lines 405–505).  The
connection `pDb` is owned by the caller; note that the query-text failure
branch nevertheless calls `sqlite3_close(pDb)` on it (line 417).  On the
zero-row path the terminator slot is only written after checking
`buflen < sizeof(char*)`; on the row path the members are first gathered
into a temporary table, the statement is finalized, and then the pointer
table plus string table are packed by `packLoop`. -/
def get_users (env : GetUsersEnv) (buflen : Nat) : GURes :=
  if !env.queryOk then ⟨.unavail, none, [], [.closeConn]⟩
  else if !env.prepareOk then ⟨.unavail, none, [], []⟩
  else if !env.bindOk then ⟨.unavail, none, [], [.prepareStmt, .finalizeStmt]⟩
  else if env.stepErr then ⟨.unavail, none, [], [.prepareStmt, .finalizeStmt]⟩
  else
    match env.rows with
    | [] =>
      if buflen < ptrWidth then ⟨.tryagain, some .erange, [], [.prepareStmt, .finalizeStmt]⟩
      else ⟨.success, none, [Wr.slot 0 none], [.prepareStmt, .finalizeStmt]⟩
    | m :: ms =>
      let members := m :: ms
      let ptrAreaSize := (members.length + 1) * ptrWidth
      if buflen < ptrAreaSize then
        ⟨.tryagain, some .erange, [], [.prepareStmt, .finalizeStmt]⟩
      else
        let p := packLoop 0 ptrAreaSize (buflen - ptrAreaSize) members
        if p.ok then ⟨.success, none, p.writes, [.prepareStmt, .finalizeStmt]⟩
        else ⟨.tryagain, some .erange, p.writes, [.prepareStmt, .finalizeStmt]⟩

/-! ## Decoding a packed buffer (the unpacking side of the round trip) -/

/-- One past the last buffer offset a write event touches. -/
def wrEnd : Wr → Nat
  | .byte off _ => off + 1
  | .slot i _ => (i + 1) * ptrWidth

/-- The pointer value held by pointer-table cell `j` after the writes `ws`
(first write wins; the packer writes each cell at most once). -/
def slotVal : List Wr → Nat → Option (Option Nat)
  | [], _ => none
  | Wr.slot i v :: ws, j => if i = j then some v else slotVal ws j
  | Wr.byte _ _ :: ws, j => slotVal ws j

/-- The byte held at offset `p` after the writes `ws` (first write wins). -/
def byteVal : List Wr → Nat → Option Nat
  | [], _ => none
  | Wr.byte off b :: ws, p => if off = p then some b else byteVal ws p
  | Wr.slot _ _ :: ws, p => byteVal ws p

/-- Read the NUL-terminated string starting at offset `off`, with explicit
fuel; stops at a NUL byte or an unwritten offset. -/
def readStr (ws : List Wr) : Nat → Nat → List Nat
  | _, 0 => []
  | off, fuel + 1 =>
    match byteVal ws off with
    | none => []
    | some b => if b = 0 then [] else b :: readStr ws (off + 1) fuel

/-- Total string-table bytes needed by a member list: `len(m)+1` per member. -/
def bytesNeeded : List (List Nat) → Nat
  | [] => 0
  | m :: ms => m.length + 1 + bytesNeeded ms

/-- The string-table offset at which member `k` is copied, when the string
table starts at offset `off`. -/
def memOff (off : Nat) : List (List Nat) → Nat → Nat
  | _, 0 => off
  | [], _ + 1 => off
  | m :: ms, k + 1 => memOff (off + (m.length + 1)) ms k

/-! ## `_nss_sqlite_initgroups_dyn`: the dynamic array grower -/

/-- The caller-visible array state of `initgroups_dyn`: `*start` (logical
length), `*size` (physical capacity) and `*groupsp` (the id array, whose
physical length the source keeps equal to `*size`). -/
structure IgSt where
  start : Nat
  size : Nat
  arr : List Int
deriving DecidableEq, Repr

/-- `realloc` of the id array to `n` cells: the first `min n (arr.length)`
cells are preserved, any new cells are uninitialized (modelled as `0`; the
source never reads them before writing them). -/
def reallocArr (arr : List Int) (n : Nat) : List Int :=
  arr.take n ++ List.replicate (n - arr.length) 0

/-- The grow-if-needed block at the top of the `do`/`while` loop body
(`groups.c` lines 362–379): when `*start == *size`, with a positive `limit`
the capacity becomes `limit < (*size * 2) ? limit : (*size * 2)` provided
`*size < limit`, and otherwise the function fails (`none`) with
`NSS_STATUS_TRYAGAIN` / `ERANGE`; with `limit <= 0` the capacity doubles. -/
def igGrow (limit : Int) (st : IgSt) : Option IgSt :=
  if st.start = st.size then
    if 0 < limit then
      if (st.size : Int) < limit then
        let newSize := if limit < 2 * (st.size : Int) then limit.toNat else 2 * st.size
        some ⟨st.start, newSize, reallocArr st.arr newSize⟩
      else none
    else
      some ⟨st.start, 2 * st.size, reallocArr st.arr (2 * st.size)⟩
  else some st

/-- Result of the `do`/`while` row loop: `done st` when the rows were
exhausted normally, `limited st` when the growth ceiling was hit (the
source returns `NSS_STATUS_TRYAGAIN` with `errno = ERANGE` there). -/
inductive IgLoopRes where
  | done (st : IgSt)
  | limited (st : IgSt)
deriving DecidableEq, Repr

/-- The `do`/`while` loop of `initgroups_dyn` (`groups.c` lines 358–383):
for each fetched row, grow if needed, then `(*groupsp)[*start] = gid;
(*start)++`. -/
def igLoop (limit : Int) : List Int → IgSt → IgLoopRes
  | [], st => .done st
  | g :: gs, st =>
    match igGrow limit st with
    | none => .limited st
    | some st2 => igLoop limit gs ⟨st2.start + 1, st2.size, st2.arr.set st2.start g⟩

/-- Injected store behaviour for one `initgroups_dyn` call. -/
structure InitgroupsEnv where
  openOk : Bool
  queryOk : Bool
  prepareOk : Bool
  bind1Ok : Bool
  bind2Ok : Bool
  stepErr : Bool
  rows : List Int
deriving DecidableEq, Repr

/-- Result of `initgroups_dyn`: status, stored errno, final `*start`,
`*size`, `*groupsp`, and the resource events. -/
structure IgRes where
  status : NssStatus
  errno : Option Errno
  start : Nat
  size : Nat
  arr : List Int
  evs : List Ev
deriving DecidableEq, Repr

/-- Shallow embedding of `_nss_sqlite_initgroups_dyn` (`groups.c` lines
306–392).  Note the early-return paths: on an open/query/prepare/bind
failure every live handle is released, but when the *first* `sqlite3_step`
reports an error or no row (`res2nss_status` ≠ success, lines 352–356) the
function returns without finalizing the statement or closing the
connection. -/
def nss_sqlite_initgroups_dyn (env : InitgroupsEnv) (start size : Nat)
    (arr : List Int) (limit : Int) : IgRes :=
  if !env.openOk then ⟨.unavail, none, start, size, arr, []⟩
  else if !env.queryOk then ⟨.unavail, none, start, size, arr, [.openConn, .closeConn]⟩
  else if !env.prepareOk then ⟨.unavail, none, start, size, arr, [.openConn, .closeConn]⟩
  else if !env.bind1Ok then
    ⟨.unavail, none, start, size, arr, [.openConn, .prepareStmt, .finalizeStmt, .closeConn]⟩
  else if !env.bind2Ok then
    ⟨.unavail, none, start, size, arr, [.openConn, .prepareStmt, .finalizeStmt, .closeConn]⟩
  else if env.stepErr then ⟨.unavail, none, start, size, arr, [.openConn, .prepareStmt]⟩
  else
    match env.rows with
    | [] => ⟨.notfound, none, start, size, arr, [.openConn, .prepareStmt]⟩
    | g :: gs =>
      match igLoop limit (g :: gs) ⟨start, size, arr⟩ with
      | .done st =>
        ⟨.success, none, st.start, st.start, reallocArr st.arr st.start,
          [.openConn, .prepareStmt, .finalizeStmt, .closeConn]⟩
      | .limited st =>
        ⟨.tryagain, some .erange, st.start, st.size, st.arr,
          [.openConn, .prepareStmt, .finalizeStmt, .closeConn]⟩

/-! ## The point lookups `_nss_sqlite_getgrnam_r` / `_nss_sqlite_getgrgid_r` -/

/-- Outcome of one `fill_group` call.  `fill_group` lives in `utils.c`
(not among the analysed sources); per the spec's marshaler contract it
either succeeds, fails retryably with `TRYAGAIN`/`ERANGE` (buffer too
small), or fails with a store-level status (e.g. `Unavailable` from
`get_users`).  The embedding injects its outcome. -/
inductive FillRes where
  | ok
  | erange
  | unavail
deriving DecidableEq, Repr

/-- The `enum nss_status` a `fill_group` outcome denotes. -/
def fillStatus : FillRes → NssStatus
  | .ok => .success
  | .erange => .tryagain
  | .unavail => .unavail

/-- The `errno` a `fill_group` outcome stores. -/
def fillErrno : FillRes → Option Errno
  | .erange => some .erange
  | _ => none

/-- Injected collaborator behaviour for one point lookup. -/
structure LookupEnv where
  openOk : Bool
  queryOk : Bool
  prepareOk : Bool
  bindOk : Bool
  step1 : StepRes
  fill : FillRes
deriving DecidableEq, Repr

/-- Result of a point lookup: status and resource events. -/
structure LkRes where
  status : NssStatus
  evs : List Ev
deriving DecidableEq, Repr

/-- Shallow embedding of `_nss_sqlite_getgrnam_r` (`groups.c` lines
168–221).  On open/query/prepare/bind failure every live handle is
released; when `res2nss_status` of the single `sqlite3_step` is not
success (no matching row, or a step error; lines 207–211) the function
returns without finalizing the statement or closing the connection; on the
row path it fills the group and then finalizes and closes. -/
def nss_sqlite_getgrnam_r (env : LookupEnv) : LkRes :=
  if !env.openOk then ⟨.unavail, []⟩
  else if !env.queryOk then ⟨.unavail, [.openConn, .closeConn]⟩
  else if !env.prepareOk then ⟨.unavail, [.openConn, .closeConn]⟩
  else if !env.bindOk then ⟨.unavail, [.openConn, .prepareStmt, .finalizeStmt, .closeConn]⟩
  else if res2nss_status env.step1 ≠ .success then
    ⟨res2nss_status env.step1, [.openConn, .prepareStmt]⟩
  else
    ⟨fillStatus env.fill, [.openConn, .prepareStmt, .finalizeStmt, .closeConn]⟩

/-- Shallow embedding of `_nss_sqlite_getgrgid_r` (`groups.c` lines
233–288); identical control flow to `getgrnam_r` with an integer bind. -/
def nss_sqlite_getgrgid_r (env : LookupEnv) : LkRes :=
  if !env.openOk then ⟨.unavail, []⟩
  else if !env.queryOk then ⟨.unavail, [.openConn, .closeConn]⟩
  else if !env.prepareOk then ⟨.unavail, [.openConn, .closeConn]⟩
  else if !env.bindOk then ⟨.unavail, [.openConn, .prepareStmt, .finalizeStmt, .closeConn]⟩
  else if res2nss_status env.step1 ≠ .success then
    ⟨res2nss_status env.step1, [.openConn, .prepareStmt]⟩
  else
    ⟨fillStatus env.fill, [.openConn, .prepareStmt, .finalizeStmt, .closeConn]⟩

/-! ## The enumeration cursor `setgrent` / `getgrent_r` / `endgrent` -/

/-- The process-wide `grent_data` struct: whether `pDb` is a live open
connection, the rows the prepared full-scan statement has not yet
delivered, the `try_again` flag, and the cached `entry` record (records
are identified by an abstract `Nat`). -/
structure GrentData where
  openDb : Bool
  rows : List Nat
  tryAgain : Bool
  entry : Nat
deriving DecidableEq, Repr

/-- Injected collaborator behaviour for `setgrent`: open / query-text /
prepare outcomes and the full row set of the enumeration query. -/
structure SetgrentEnv where
  openOk : Bool
  queryOk : Bool
  prepareOk : Bool
  table : List Nat
deriving DecidableEq, Repr

/-- Result of one cursor operation: status, the new `grent_data`, and the
lock/resource events in order. -/
structure OpRes where
  status : NssStatus
  st : GrentData
  evs : List Ev
deriving DecidableEq, Repr

/-- Shallow embedding of `_nss_sqlite_setgrent` (`groups.c` lines 64–89).
The mutex is acquired first; when `grent_data.pDb` is already open the
initialization is skipped and the function unlocks and succeeds.  On the
three initialization failure paths the function returns `Unavailable`
*without* calling `pthread_mutex_unlock` (lines 71, 76, 83).  On a failed
open / query / prepare the model leaves `openDb := false` (the source
leaves the closed pointer in `grent_data.pDb` without nulling it; no claim
depends on that dangling value). -/
def nss_sqlite_setgrent (env : SetgrentEnv) (st : GrentData) : OpRes :=
  if st.openDb then ⟨.success, st, [.lockM, .unlockM]⟩
  else if !env.openOk then ⟨.unavail, st, [.lockM]⟩
  else if !env.queryOk then ⟨.unavail, st, [.lockM, .openConn, .closeConn]⟩
  else if !env.prepareOk then ⟨.unavail, st, [.lockM, .openConn, .closeConn]⟩
  else
    ⟨.success, ⟨true, env.table, st.tryAgain, st.entry⟩,
      [.lockM, .openConn, .prepareStmt, .unlockM]⟩

/-- Shallow embedding of `_nss_sqlite_endgrent` (`groups.c` lines 94–104):
lock, finalize and close when the connection is open, null the pointer,
unlock, succeed. -/
def nss_sqlite_endgrent (st : GrentData) : OpRes :=
  if st.openDb then
    ⟨.success, ⟨false, [], st.tryAgain, st.entry⟩,
      [.lockM, .finalizeStmt, .closeConn, .unlockM]⟩
  else ⟨.success, st, [.lockM, .unlockM]⟩

/-- Result of one `getgrent_r` call.  `delivered` is the record whose
marshal into the caller's buffer succeeded during this call (`none` when
no marshal succeeded — note the source can still return
`NSS_STATUS_SUCCESS` in that case, line 155). -/
structure GrentRes where
  status : NssStatus
  errno : Option Errno
  delivered : Option Nat
  st : GrentData
  evs : List Ev
deriving DecidableEq, Repr

/-- The code of `_nss_sqlite_getgrent_r` after the `try_again` block
(`groups.c` lines 136–155): step the statement; when `res2nss_status` of
the step is not success, null `grent_data.pDb` (*without* finalizing the
statement or closing the connection, line 138) and return that status;
otherwise cache the fetched row in `grent_data.entry` and marshal it with
`fill_group` (outcome `fillNew`).  On `TRYAGAIN`/`ERANGE` set `try_again`
and return `TRYAGAIN`; otherwise return `NSS_STATUS_SUCCESS`
unconditionally — the `try_again` flag is *not* cleared here and a
non-`ERANGE` `fill_group` failure is *not* propagated (line 155).
A step on a closed connection (possible when the implicit `setgrent`
failed; the source does not check its return, line 123) is modelled as a
step error. -/
def grent_step_phase (fillNew : FillRes) (st1 : GrentData) (evs1 : List Ev) : GrentRes :=
  if !st1.openDb then
    ⟨.unavail, none, none, ⟨false, st1.rows, st1.tryAgain, st1.entry⟩,
      [Ev.lockM] ++ evs1 ++ [Ev.unlockM]⟩
  else
    match st1.rows with
    | [] =>
      ⟨.notfound, none, none, ⟨false, [], st1.tryAgain, st1.entry⟩,
        [Ev.lockM] ++ evs1 ++ [Ev.unlockM]⟩
    | r :: rest =>
      if fillNew = .erange then
        ⟨.tryagain, some .erange, none, ⟨st1.openDb, rest, true, r⟩,
          [Ev.lockM] ++ evs1 ++ [Ev.unlockM]⟩
      else
        ⟨.success, none, (if fillNew = .ok then some r else none),
          ⟨st1.openDb, rest, st1.tryAgain, r⟩,
          [Ev.lockM] ++ evs1 ++ [Ev.unlockM]⟩

/-- Shallow embedding of `_nss_sqlite_getgrent_r` (`groups.c` lines
115–156).  Lock; if the connection is closed run the implicit
`_nss_sqlite_setgrent` (its status is ignored, line 123; its events —
including its own lock/unlock, which are re-entrant acquisitions of the
same recursive mutex — are inlined into this call's trace).  If
`try_again` is set, re-marshal the cached entry (outcome `fillRetry`):
when the result is not `TRYAGAIN`/`ERANGE` clear the flag, unlock and
return it (delivering the cached entry on success); when it *is* still
`TRYAGAIN`/`ERANGE` the source falls through to the step phase, advancing
the row cursor past the cached record. -/
def nss_sqlite_getgrent_r (sg : SetgrentEnv) (fillRetry fillNew : FillRes)
    (st0 : GrentData) : GrentRes :=
  let inner := if st0.openDb then (st0, ([] : List Ev))
    else
      let r := nss_sqlite_setgrent sg st0
      (r.st, r.evs)
  let st1 := inner.1
  let evs1 := inner.2
  if st1.tryAgain then
    if fillRetry ≠ .erange then
      ⟨fillStatus fillRetry, fillErrno fillRetry,
        (if fillRetry = .ok then some st1.entry else none),
        ⟨st1.openDb, st1.rows, false, st1.entry⟩,
        [Ev.lockM] ++ evs1 ++ [Ev.unlockM]⟩
    else grent_step_phase fillNew st1 evs1
  else grent_step_phase fillNew st1 evs1

/-! ## Lemmas about the packing phase -/

lemma strWrites_mem (m : List Nat) : ∀ (off : Nat), ∀ w ∈ strWrites off m,
    ∃ o b, w = Wr.byte o b ∧ off ≤ o ∧ o ≤ off + m.length := by
  induction m with
  | nil =>
    intro off w hw
    simp only [strWrites, List.mem_singleton] at hw
    exact ⟨off, 0, hw, le_refl _, by simp⟩
  | cons b bs ih =>
    intro off w hw
    simp only [strWrites, List.mem_cons] at hw
    rcases hw with rfl | hw
    · exact ⟨off, b, rfl, le_refl _, by simp⟩
    · obtain ⟨o, c, rfl, h1, h2⟩ := ih (off + 1) w hw
      exact ⟨o, c, rfl, by omega, by simp at h2 ⊢; omega⟩

lemma packLoop_writes_bound (ms : List (List Nat)) : ∀ (i off rem : Nat),
    ∀ w ∈ (packLoop i off rem ms).writes,
    (∃ j v, w = Wr.slot j v ∧ j ≤ i + ms.length) ∨
    (∃ o b, w = Wr.byte o b ∧ off ≤ o ∧ o + 1 ≤ off + rem) := by
  induction ms with
  | nil =>
    intro i off rem w hw
    simp only [packLoop, List.mem_singleton] at hw
    exact .inl ⟨i, none, hw, by simp⟩
  | cons m ms ih =>
    intro i off rem w hw
    simp only [packLoop] at hw
    by_cases hrem : rem < m.length + 1
    · simp [hrem] at hw
    · rw [if_neg hrem] at hw
      simp only [List.mem_append, List.mem_cons] at hw
      rcases hw with hw | hw | hw
      · obtain ⟨o, b, rfl, h1, h2⟩ := strWrites_mem m off w hw
        exact .inr ⟨o, b, rfl, h1, by omega⟩
      · exact .inl ⟨i, some off, hw, by simp⟩
      · rcases ih (i + 1) (off + (m.length + 1)) (rem - (m.length + 1)) w hw with
          ⟨j, v, rfl, hj⟩ | ⟨o, b, rfl, h1, h2⟩
        · exact .inl ⟨j, v, rfl, by simp at hj ⊢; omega⟩
        · exact .inr ⟨o, b, rfl, by omega, by omega⟩

lemma packLoop_ok_iff (ms : List (List Nat)) : ∀ (i off rem : Nat),
    (packLoop i off rem ms).ok = true ↔ bytesNeeded ms ≤ rem := by
  induction ms with
  | nil => intro i off rem; simp [packLoop, bytesNeeded]
  | cons m ms ih =>
    intro i off rem
    simp only [packLoop, bytesNeeded]
    by_cases hrem : rem < m.length + 1
    · simp [hrem]; omega
    · rw [if_neg hrem]
      simp only []
      rw [ih]
      omega

lemma packLoop_fail_shortfall (ms : List (List Nat)) : ∀ (i off rem : Nat),
    (packLoop i off rem ms).ok = false → rem < bytesNeeded ms := by
  intro i off rem h
  by_contra hc
  rw [← Bool.not_eq_true] at h
  exact h ((packLoop_ok_iff ms i off rem).mpr (by omega))

/-- The write list the packing loop produces when capacity suffices:
per member, its string bytes then its pointer slot; the terminator slot
last. -/
def packWrites : Nat → Nat → List (List Nat) → List Wr
  | i, _, [] => [Wr.slot i none]
  | i, off, m :: ms =>
    strWrites off m ++ Wr.slot i (some off) :: packWrites (i + 1) (off + (m.length + 1)) ms

lemma packLoop_ok_writes (ms : List (List Nat)) : ∀ (i off rem : Nat),
    bytesNeeded ms ≤ rem → packLoop i off rem ms = ⟨true, packWrites i off ms⟩ := by
  induction ms with
  | nil => intro i off rem _; rfl
  | cons m ms ih =>
    intro i off rem hrem
    simp only [bytesNeeded] at hrem
    rw [packLoop, if_neg (by omega)]
    simp only []
    rw [ih (i + 1) (off + (m.length + 1)) (rem - (m.length + 1)) (by omega)]
    rfl

lemma memOff_ge (ms : List (List Nat)) : ∀ (off k : Nat), off ≤ memOff off ms k := by
  induction ms with
  | nil => intro off k; cases k <;> simp [memOff]
  | cons m ms ih =>
    intro off k
    cases k with
    | zero => simp [memOff]
    | succ k =>
      calc off ≤ off + (m.length + 1) := by omega
        _ ≤ memOff (off + (m.length + 1)) ms k := ih _ _

lemma memOff_le (ms : List (List Nat)) : ∀ (off k : Nat) (hk : k < ms.length),
    memOff off ms k + ((ms.get ⟨k, hk⟩).length + 1) ≤ off + bytesNeeded ms := by
  induction ms with
  | nil => intro off k hk; simp at hk
  | cons m ms ih =>
    intro off k hk
    cases k with
    | zero => simp only [memOff, List.get, bytesNeeded]; omega
    | succ k =>
      simp only [memOff, List.get, bytesNeeded]
      have := ih (off + (m.length + 1)) k (by simpa using hk)
      omega

lemma slotVal_strWrites_append (m : List Nat) : ∀ (off : Nat) (ws : List Wr) (j : Nat),
    slotVal (strWrites off m ++ ws) j = slotVal ws j := by
  induction m with
  | nil => intro off ws j; simp [strWrites, slotVal]
  | cons b bs ih => intro off ws j; simp [strWrites, slotVal, ih]

lemma byteVal_strWrites_append_high (m : List Nat) : ∀ (off : Nat) (ws : List Wr) (p : Nat),
    off + m.length + 1 ≤ p → byteVal (strWrites off m ++ ws) p = byteVal ws p := by
  induction m with
  | nil =>
    intro off ws p hp
    simp only [strWrites, List.cons_append, List.nil_append, byteVal]
    rw [if_neg (by omega)]
    rfl
  | cons b bs ih =>
    intro off ws p hp
    simp only [strWrites, List.cons_append, byteVal]
    rw [if_neg (by omega)]
    exact ih (off + 1) ws p (by simp only [List.length_cons] at hp; omega)

lemma byteVal_strWrites_head (m : List Nat) (off : Nat) (ws : List Wr) :
    byteVal (strWrites off m ++ ws) off =
      some (match m with | [] => 0 | b :: _ => b) := by
  cases m with
  | nil => simp [strWrites, byteVal]
  | cons b bs => simp [strWrites, byteVal]

lemma readStr_congr (ws1 ws2 : List Wr) : ∀ (fuel q : Nat),
    (∀ p, q ≤ p → byteVal ws1 p = byteVal ws2 p) →
    readStr ws1 q fuel = readStr ws2 q fuel := by
  intro fuel
  induction fuel with
  | zero => intro q _; rfl
  | succ f ih =>
    intro q hq
    simp only [readStr, hq q (le_refl q)]
    cases byteVal ws2 q with
    | none => rfl
    | some b =>
      simp only []
      by_cases hb : b = 0
      · rw [if_pos hb, if_pos hb]
      · rw [if_neg hb, if_neg hb, ih (q + 1) (fun p hp => hq p (by omega))]

lemma readStr_strWrites_front (m : List Nat) : ∀ (off : Nat) (ws : List Wr) (fuel : Nat),
    (∀ b ∈ m, b ≠ 0) → m.length + 1 ≤ fuel →
    readStr (strWrites off m ++ ws) off fuel = m := by
  induction m with
  | nil =>
    intro off ws fuel _ hf
    cases fuel with
    | zero => omega
    | succ f =>
      have hbv := byteVal_strWrites_head [] off ws
      simp only [] at hbv
      simp only [readStr, hbv]
      simp
  | cons b bs ih =>
    intro off ws fuel hnz hf
    cases fuel with
    | zero => simp only [List.length_cons] at hf; omega
    | succ f =>
      have hb : b ≠ 0 := hnz b (List.mem_cons_self b bs)
      have hbv := byteVal_strWrites_head (b :: bs) off ws
      simp only [] at hbv
      simp only [readStr, hbv]
      rw [if_neg hb]
      have hcg : readStr (strWrites off (b :: bs) ++ ws) (off + 1) f =
          readStr (strWrites (off + 1) bs ++ ws) (off + 1) f := by
        apply readStr_congr
        intro p hp
        simp only [strWrites, List.cons_append, byteVal]
        rw [if_neg (by omega)]
        rfl
      rw [hcg, ih (off + 1) ws f (fun c hc => hnz c (List.mem_cons_of_mem b hc))
        (by simp only [List.length_cons] at hf; omega)]

lemma slotVal_packWrites_lt (ms : List (List Nat)) : ∀ (i off k : Nat),
    k < ms.length →
    slotVal (packWrites i off ms) (i + k) = some (some (memOff off ms k)) := by
  induction ms with
  | nil => intro i off k hk; simp at hk
  | cons m ms ih =>
    intro i off k hk
    rw [packWrites, slotVal_strWrites_append]
    cases k with
    | zero =>
      simp only [slotVal, Nat.add_zero, if_pos rfl]
      rfl
    | succ k =>
      simp only [slotVal]
      rw [if_neg (by omega)]
      have : i + (k + 1) = (i + 1) + k := by omega
      rw [this, ih (i + 1) (off + (m.length + 1)) k (by simpa using hk)]
      rfl

lemma slotVal_packWrites_last (ms : List (List Nat)) : ∀ (i off : Nat),
    slotVal (packWrites i off ms) (i + ms.length) = some none := by
  induction ms with
  | nil => intro i off; simp [packWrites, slotVal]
  | cons m ms ih =>
    intro i off
    rw [packWrites, slotVal_strWrites_append]
    simp only [slotVal, List.length_cons]
    rw [if_neg (by omega)]
    have : i + (ms.length + 1) = (i + 1) + ms.length := by omega
    rw [this, ih (i + 1) (off + (m.length + 1))]

lemma readStr_packWrites (ms : List (List Nat)) : ∀ (i off k : Nat)
    (hk : k < ms.length) (fuel : Nat),
    (∀ m ∈ ms, ∀ b ∈ m, b ≠ 0) → ((ms.get ⟨k, hk⟩).length + 1) ≤ fuel →
    readStr (packWrites i off ms) (memOff off ms k) fuel = ms.get ⟨k, hk⟩ := by
  induction ms with
  | nil => intro i off k hk; simp at hk
  | cons m ms ih =>
    intro i off k hk fuel hnz hf
    cases k with
    | zero =>
      rw [packWrites]
      exact readStr_strWrites_front m off _ fuel
        (hnz m (List.mem_cons_self m ms)) hf
    | succ k =>
      rw [packWrites]
      have hk2 : k < ms.length := by simpa using hk
      have hge := memOff_ge ms (off + (m.length + 1)) k
      have hcg : readStr (strWrites off m ++ Wr.slot i (some off) ::
            packWrites (i + 1) (off + (m.length + 1)) ms)
            (memOff off (m :: ms) (k + 1)) fuel =
          readStr (packWrites (i + 1) (off + (m.length + 1)) ms)
            (memOff off (m :: ms) (k + 1)) fuel := by
        apply readStr_congr
        intro p hp
        have hp2 : off + m.length + 1 ≤ p := by
          have : memOff off (m :: ms) (k + 1) =
              memOff (off + (m.length + 1)) ms k := rfl
          omega
        rw [byteVal_strWrites_append_high m off _ p hp2]
        simp only [byteVal]
      rw [hcg]
      exact ih (i + 1) (off + (m.length + 1)) k hk2 fuel
        (fun c hc => hnz c (List.mem_cons_of_mem m hc)) hf

lemma getLast_append_cons (w : Wr) (ws2 : List Wr) : ∀ (ws1 : List Wr),
    (ws1 ++ w :: ws2).getLast? = (w :: ws2).getLast? := by
  intro ws1
  induction ws1 with
  | nil => rfl
  | cons a ws1 ih =>
    rcases hl : ws1 ++ w :: ws2 with _ | ⟨x, xs⟩
    · exact absurd hl (by simp)
    · rw [List.cons_append, hl, List.getLast?_cons_cons, ← hl, ih]

lemma packWrites_getLast (ms : List (List Nat)) : ∀ (i off : Nat),
    (packWrites i off ms).getLast? = some (Wr.slot (i + ms.length) none) := by
  induction ms with
  | nil => intro i off; simp [packWrites]
  | cons m ms ih =>
    intro i off
    rw [packWrites, getLast_append_cons]
    rcases hl : packWrites (i + 1) (off + (m.length + 1)) ms with _ | ⟨x, xs⟩
    · cases ms <;> simp [packWrites] at hl
    · rw [List.getLast?_cons_cons, ← hl, ih]
      simp only [List.length_cons]
      congr 2
      omega

/-! ## Lemmas about the dynamic array grower -/

lemma reallocArr_length (arr : List Int) (n : Nat) : (reallocArr arr n).length = n := by
  simp only [reallocArr, List.length_append, List.length_take, List.length_replicate]
  omega

lemma reallocArr_of_le (arr : List Int) (n : Nat) (h : n ≤ arr.length) :
    reallocArr arr n = arr.take n := by
  simp only [reallocArr, Nat.sub_eq_zero_of_le h, List.replicate_zero, List.append_nil]

lemma reallocArr_take (arr : List Int) (n s : Nat) (h1 : s ≤ n) (h2 : s ≤ arr.length) :
    (reallocArr arr n).take s = arr.take s := by
  simp only [reallocArr, List.take_append_eq_append_take, List.take_take,
    List.length_take]
  rw [min_eq_left h1, Nat.sub_eq_zero_of_le (by omega : s ≤ min n arr.length),
    List.take_zero, List.append_nil]

lemma take_succ_set (l : List Int) : ∀ (n : Nat) (a : Int), n < l.length →
    (l.set n a).take (n + 1) = l.take n ++ [a] := by
  induction l with
  | nil => intro n a h; simp at h
  | cons x xs ih =>
    intro n a h
    cases n with
    | zero => rfl
    | succ n =>
      simp only [List.set_cons_succ, List.take_cons, List.take_succ_cons,
        List.cons_append]
      rw [ih n a (by simpa using h)]

lemma igGrow_spec (limit : Int) (st : IgSt) (h1 : st.start ≤ st.size)
    (h2 : st.arr.length = st.size) (h3 : 0 < st.size)
    (h4 : 0 < limit → (st.size : Int) ≤ limit) :
    (igGrow limit st = none → 0 < limit ∧ (st.size : Int) = limit ∧
      st.start = st.size) ∧
    (∀ st2, igGrow limit st = some st2 →
      st2.start = st.start ∧ st2.start < st2.size ∧ st2.arr.length = st2.size ∧
      (0 < limit → (st2.size : Int) ≤ limit) ∧
      st2.arr.take st2.start = st.arr.take st.start) := by
  by_cases hss : st.start = st.size
  · by_cases hl : 0 < limit
    · by_cases hsl : (st.size : Int) < limit
      · by_cases hlim2 : limit < 2 * (st.size : Int)
        · have heq : igGrow limit st =
              some ⟨st.start, limit.toNat, reallocArr st.arr limit.toNat⟩ := by
            unfold igGrow
            rw [if_pos hss, if_pos hl, if_pos hsl]
            simp only []
            rw [if_pos hlim2]
          rw [heq]
          refine ⟨fun hc => Option.noConfusion hc, fun st2 hc => ?_⟩
          obtain rfl : st2 = ⟨st.start, limit.toNat, reallocArr st.arr limit.toNat⟩ :=
            (Option.some.inj hc).symm
          exact ⟨rfl, show st.start < limit.toNat by omega,
            reallocArr_length _ _,
            fun _ => show ((limit.toNat : Nat) : Int) ≤ limit by omega,
            reallocArr_take st.arr _ st.start (by omega) (by omega)⟩
        · have heq : igGrow limit st =
              some ⟨st.start, 2 * st.size, reallocArr st.arr (2 * st.size)⟩ := by
            unfold igGrow
            rw [if_pos hss, if_pos hl, if_pos hsl]
            simp only []
            rw [if_neg hlim2]
          rw [heq]
          refine ⟨fun hc => Option.noConfusion hc, fun st2 hc => ?_⟩
          obtain rfl : st2 = ⟨st.start, 2 * st.size, reallocArr st.arr (2 * st.size)⟩ :=
            (Option.some.inj hc).symm
          exact ⟨rfl, show st.start < 2 * st.size by omega,
            reallocArr_length _ _,
            fun _ => show ((2 * st.size : Nat) : Int) ≤ limit by push_cast; omega,
            reallocArr_take st.arr _ st.start (by omega) (by omega)⟩
      · have heq : igGrow limit st = none := by
          unfold igGrow
          rw [if_pos hss, if_pos hl, if_neg hsl]
        rw [heq]
        exact ⟨fun _ => ⟨hl, by have := h4 hl; omega, hss⟩,
          fun st2 hc => Option.noConfusion hc⟩
    · have heq : igGrow limit st =
          some ⟨st.start, 2 * st.size, reallocArr st.arr (2 * st.size)⟩ := by
        unfold igGrow
        rw [if_pos hss, if_neg hl]
      rw [heq]
      refine ⟨fun hc => Option.noConfusion hc, fun st2 hc => ?_⟩
      obtain rfl : st2 = ⟨st.start, 2 * st.size, reallocArr st.arr (2 * st.size)⟩ :=
        (Option.some.inj hc).symm
      exact ⟨rfl, show st.start < 2 * st.size by omega,
        reallocArr_length _ _, fun hlim => absurd hlim hl,
        reallocArr_take st.arr _ st.start (by omega) (by omega)⟩
  · have heq : igGrow limit st = some st := by
      unfold igGrow
      rw [if_neg hss]
    rw [heq]
    refine ⟨fun hc => Option.noConfusion hc, fun st2 hc => ?_⟩
    obtain rfl : st2 = st := (Option.some.inj hc).symm
    exact ⟨rfl, by omega, h2, h4, rfl⟩

lemma igLoop_master (limit : Int) : ∀ (rows : List Int) (st : IgSt),
    st.start ≤ st.size → st.arr.length = st.size → 0 < st.size →
    (0 < limit → (st.size : Int) ≤ limit) →
    (∀ st2, igLoop limit rows st = .done st2 →
        st2.start = st.start + rows.length ∧
        st2.start ≤ st2.size ∧ st2.arr.length = st2.size ∧ 0 < st2.size ∧
        st2.arr.take st2.start = st.arr.take st.start ++ rows ∧
        ¬(0 < limit ∧ limit < (st.start : Int) + rows.length)) ∧
    (∀ st2, igLoop limit rows st = .limited st2 →
        0 < limit ∧ (st2.start : Int) = limit ∧ st2.size = st2.start ∧
        limit < (st.start : Int) + rows.length) := by
  intro rows
  induction rows with
  | nil =>
    intro st h1 h2 h3 h4
    refine ⟨fun st2 hc => ?_, fun st2 hc => IgLoopRes.noConfusion hc⟩
    injection hc with hc
    subst hc
    refine ⟨by simp, h1, h2, h3, by simp, ?_⟩
    rintro ⟨hl, hlt⟩
    have := h4 hl
    simp only [List.length_nil] at hlt
    omega
  | cons g gs ih =>
    intro st h1 h2 h3 h4
    have hspec := igGrow_spec limit st h1 h2 h3 h4
    rcases hgrow : igGrow limit st with _ | st2
    · have hfail := hspec.1 hgrow
      rw [show igLoop limit (g :: gs) st = .limited st from by
        rw [igLoop, hgrow]]
      refine ⟨fun st3 hc => IgLoopRes.noConfusion hc, fun st3 hc => ?_⟩
      injection hc with hc
      subst hc
      refine ⟨hfail.1, by omega, by omega, ?_⟩
      simp only [List.length_cons]
      push_cast
      omega
    · have hsome := hspec.2 st2 hgrow
      obtain ⟨hst, hlt, hlen, hlim, htake⟩ := hsome
      rw [show igLoop limit (g :: gs) st =
          igLoop limit gs ⟨st2.start + 1, st2.size, st2.arr.set st2.start g⟩ from by
        rw [igLoop, hgrow]]
      have hih := ih ⟨st2.start + 1, st2.size, st2.arr.set st2.start g⟩
        (by simp only []; omega)
        (by simp only [List.length_set]; omega)
        (by simp only []; omega)
        (by simpa using hlim)
      have htk3 : (st2.arr.set st2.start g).take (st2.start + 1) =
          st.arr.take st.start ++ [g] := by
        rw [take_succ_set st2.arr st2.start g (by omega), htake]
      refine ⟨fun st4 hdone => ?_, fun st4 hlimited => ?_⟩
      · obtain ⟨e1, e2, e3, e4, e5, e6⟩ := hih.1 st4 hdone
        simp only [] at e1 e5
        refine ⟨by simp only [List.length_cons]; omega, e2, e3, e4, ?_, ?_⟩
        · rw [e5, htk3, List.append_assoc, List.singleton_append]
        · rintro ⟨hl, hlim2⟩
          refine e6 ⟨hl, ?_⟩
          simp only [List.length_cons] at hlim2
          push_cast at hlim2 ⊢
          omega
      · obtain ⟨e1, e2, e3, e4⟩ := hih.2 st4 hlimited
        simp only [] at e4
        refine ⟨e1, e2, e3, ?_⟩
        simp only [List.length_cons]
        push_cast at e4 ⊢
        omega

/-! ## Claim theorems -/

/-- C7: when the membership query yields zero rows, `get_users` succeeds
with an empty member list — exactly the terminator slot written — unless
the buffer cannot hold even one pointer slot (`buflen < ptrWidth`), in
which case it fails with `TryAgain`/`ERANGE` instead of succeeding. -/
theorem claim_C7_zero_member_edge (qs ps bs : Bool) (buflen : Nat) :
    (buflen < ptrWidth →
      get_users ⟨qs, ps, bs, false, []⟩ buflen =
        if !qs then ⟨.unavail, none, [], [.closeConn]⟩
        else if !ps then ⟨.unavail, none, [], []⟩
        else if !bs then ⟨.unavail, none, [], [.prepareStmt, .finalizeStmt]⟩
        else ⟨.tryagain, some .erange, [], [.prepareStmt, .finalizeStmt]⟩) ∧
    (ptrWidth ≤ buflen →
      get_users ⟨qs, ps, bs, false, []⟩ buflen =
        if !qs then ⟨.unavail, none, [], [.closeConn]⟩
        else if !ps then ⟨.unavail, none, [], []⟩
        else if !bs then ⟨.unavail, none, [], [.prepareStmt, .finalizeStmt]⟩
        else ⟨.success, none, [Wr.slot 0 none], [.prepareStmt, .finalizeStmt]⟩) := by
  constructor
  · intro h
    cases qs <;> cases ps <;> cases bs <;> simp [get_users, h]
  · intro h
    cases qs <;> cases ps <;> cases bs <;> simp [get_users, Nat.not_lt.mpr h]

/-- C7 witness: with a healthy store and zero rows, a 4-byte buffer gets
`TryAgain` and an 8-byte buffer gets `Success` with just the terminator. -/
theorem claim_C7_zero_member_edge_witness :
    get_users ⟨true, true, true, false, []⟩ 4 =
      ⟨.tryagain, some .erange, [], [.prepareStmt, .finalizeStmt]⟩ ∧
    get_users ⟨true, true, true, false, []⟩ 8 =
      ⟨.success, none, [Wr.slot 0 none], [.prepareStmt, .finalizeStmt]⟩ := by
  have h4 := (claim_C7_zero_member_edge true true true 4).1 (by decide)
  have h8 := (claim_C7_zero_member_edge true true true 8).2 (by decide)
  exact ⟨by rw [h4]; decide, by rw [h8]; decide⟩

/-- C3: the `get_users` packing phase is capacity-checked.  Every write it
performs ends at an offset at most `buflen` (no write touches an offset
`>= buflen`); when the buffer cannot hold the pointer table,
`(member_count + 1) * sizeof(char*)`, nothing at all is written; and with a
healthy store the call fails retryably — `TryAgain` with `ERANGE` — exactly
when the buffer is smaller than pointer table plus string table. -/
theorem claim_C3_capacity_checked_marshal (qs ps bs se : Bool)
    (rows : List (List Nat)) (buflen : Nat) :
    (∀ w ∈ (get_users ⟨qs, ps, bs, se, rows⟩ buflen).writes, wrEnd w ≤ buflen) ∧
    (buflen < (rows.length + 1) * ptrWidth →
      (get_users ⟨qs, ps, bs, se, rows⟩ buflen).writes = []) ∧
    (qs = true → ps = true → bs = true → se = false →
      (((get_users ⟨qs, ps, bs, se, rows⟩ buflen).status = .tryagain ↔
          buflen < (rows.length + 1) * ptrWidth + bytesNeeded rows) ∧
        ((get_users ⟨qs, ps, bs, se, rows⟩ buflen).status = .tryagain →
          (get_users ⟨qs, ps, bs, se, rows⟩ buflen).errno = some .erange))) := by
  by_cases hq : qs = true
  rotate_left
  · rw [Bool.not_eq_true] at hq; subst hq
    exact ⟨by simp [get_users], by simp [get_users], by simp⟩
  by_cases hp : ps = true
  rotate_left
  · rw [Bool.not_eq_true] at hp; subst hp hq
    exact ⟨by simp [get_users], by simp [get_users], by simp⟩
  by_cases hb : bs = true
  rotate_left
  · rw [Bool.not_eq_true] at hb; subst hb hp hq
    exact ⟨by simp [get_users], by simp [get_users], by simp⟩
  by_cases hse : se = false
  rotate_left
  · rw [Bool.not_eq_false] at hse; subst hse hb hp hq
    exact ⟨by simp [get_users], by simp [get_users], by simp⟩
  subst hse hb hp hq
  cases rows with
  | nil =>
    rw [show get_users ⟨true, true, true, false, []⟩ buflen =
        (if buflen < ptrWidth then
          ⟨.tryagain, some .erange, [], [.prepareStmt, .finalizeStmt]⟩
        else
          ⟨.success, none, [Wr.slot 0 none], [.prepareStmt, .finalizeStmt]⟩)
      from rfl]
    by_cases h : buflen < ptrWidth
    · rw [if_pos h]
      refine ⟨by simp, fun _ => rfl, fun _ _ _ _ => ⟨⟨fun _ => ?_, fun _ => rfl⟩,
        fun _ => rfl⟩⟩
      simp only [List.length_nil, bytesNeeded]
      omega
    · rw [if_neg h]
      refine ⟨?_, fun hbl => absurd (by simpa using hbl) h,
        fun _ _ _ _ => ⟨⟨fun hc => NssStatus.noConfusion hc,
          fun hc => absurd (show buflen < ptrWidth by
            simp only [List.length_nil, bytesNeeded] at hc; omega) h⟩,
          fun hc => NssStatus.noConfusion hc⟩⟩
      intro w hw
      simp only [List.mem_singleton] at hw
      subst hw
      simp only [wrEnd, ptrWidth] at h ⊢
      omega
  | cons m ms =>
    have hbound := packLoop_writes_bound (m :: ms) 0
      (((m :: ms).length + 1) * ptrWidth)
      (buflen - ((m :: ms).length + 1) * ptrWidth)
    have hwr : ∀ w ∈ (packLoop 0 (((m :: ms).length + 1) * ptrWidth)
        (buflen - ((m :: ms).length + 1) * ptrWidth) (m :: ms)).writes,
        ((m :: ms).length + 1) * ptrWidth ≤ buflen → wrEnd w ≤ buflen := by
      intro w hw hba
      rcases hbound w hw with ⟨j, v, rfl, hj⟩ | ⟨o, b, rfl, h1, h2⟩
      · simp only [wrEnd]
        calc (j + 1) * ptrWidth ≤ ((m :: ms).length + 1) * ptrWidth :=
              Nat.mul_le_mul_right ptrWidth (by omega)
          _ ≤ buflen := hba
      · simp only [wrEnd]; omega
    rw [show get_users ⟨true, true, true, false, m :: ms⟩ buflen =
        (if buflen < ((m :: ms).length + 1) * ptrWidth then
          ⟨.tryagain, some .erange, [], [.prepareStmt, .finalizeStmt]⟩
        else if (packLoop 0 (((m :: ms).length + 1) * ptrWidth)
            (buflen - ((m :: ms).length + 1) * ptrWidth) (m :: ms)).ok = true then
          ⟨.success, none, (packLoop 0 (((m :: ms).length + 1) * ptrWidth)
            (buflen - ((m :: ms).length + 1) * ptrWidth) (m :: ms)).writes,
            [.prepareStmt, .finalizeStmt]⟩
        else
          ⟨.tryagain, some .erange, (packLoop 0 (((m :: ms).length + 1) * ptrWidth)
            (buflen - ((m :: ms).length + 1) * ptrWidth) (m :: ms)).writes,
            [.prepareStmt, .finalizeStmt]⟩)
      from rfl]
    by_cases h : buflen < ((m :: ms).length + 1) * ptrWidth
    · rw [if_pos h]
      exact ⟨by simp, fun _ => rfl, fun _ _ _ _ => ⟨⟨fun _ => by omega,
        fun _ => rfl⟩, fun _ => rfl⟩⟩
    · rw [if_neg h]
      by_cases hpk : (packLoop 0 (((m :: ms).length + 1) * ptrWidth)
          (buflen - ((m :: ms).length + 1) * ptrWidth) (m :: ms)).ok = true
      · rw [if_pos hpk]
        have hbn := (packLoop_ok_iff (m :: ms) 0
          (((m :: ms).length + 1) * ptrWidth)
          (buflen - ((m :: ms).length + 1) * ptrWidth)).mp hpk
        refine ⟨fun w hw => hwr w hw (by omega), fun hbl => absurd hbl h,
          fun _ _ _ _ => ⟨⟨fun hc => NssStatus.noConfusion hc, fun hc => absurd hc (by omega)⟩,
            fun hc => NssStatus.noConfusion hc⟩⟩
      · rw [if_neg hpk]
        have hbn := packLoop_fail_shortfall (m :: ms) 0
          (((m :: ms).length + 1) * ptrWidth)
          (buflen - ((m :: ms).length + 1) * ptrWidth)
          (by simpa using hpk)
        refine ⟨fun w hw => hwr w hw (by omega), fun hbl => absurd hbl h,
          fun _ _ _ _ => ⟨⟨fun _ => by omega, fun _ => rfl⟩, fun _ => rfl⟩⟩

/-- C3 witness: a one-member record (name bytes `[97, 98]`): an 18-byte
buffer is below pointer table plus string table (16 + 3 = 19), so the call
fails retryably; a 15-byte buffer is below even the 16-byte pointer table,
so nothing is written. -/
theorem claim_C3_capacity_checked_marshal_witness :
    (get_users ⟨true, true, true, false, [[97, 98]]⟩ 18).status = .tryagain ∧
    (get_users ⟨true, true, true, false, [[97, 98]]⟩ 15).writes = [] := by
  have h18 := claim_C3_capacity_checked_marshal true true true false [[97, 98]] 18
  have h15 := claim_C3_capacity_checked_marshal true true true false [[97, 98]] 15
  exact ⟨((h18.2.2 rfl rfl rfl rfl).1).mpr (by decide),
    h15.2.1 (by decide)⟩

/-- C4: marshaling round trip.  For any member list whose names are
NUL-free (as C strings are) and any buffer of size at least
`(N + 1) * pointer_width + S` (`S` the total string bytes including NUL
terminators), `get_users` succeeds; the terminator slot is the last write
performed; slot `N` holds `NULL`; and for each `k < N`, slot `k` holds an
offset inside the string-table suffix of the same buffer at which the
`k`-th member name sits, NUL-terminated — pointer-table entries in input
order, decoding back to the original member list. -/
theorem claim_C4_round_trip (rows : List (List Nat)) (buflen : Nat)
    (hnz : ∀ m ∈ rows, ∀ b ∈ m, b ≠ 0)
    (hbl : (rows.length + 1) * ptrWidth + bytesNeeded rows ≤ buflen) :
    (get_users ⟨true, true, true, false, rows⟩ buflen).status = .success ∧
    (get_users ⟨true, true, true, false, rows⟩ buflen).writes.getLast? =
      some (Wr.slot rows.length none) ∧
    slotVal (get_users ⟨true, true, true, false, rows⟩ buflen).writes
      rows.length = some none ∧
    (∀ k (hk : k < rows.length),
      slotVal (get_users ⟨true, true, true, false, rows⟩ buflen).writes k =
        some (some (memOff ((rows.length + 1) * ptrWidth) rows k)) ∧
      (rows.length + 1) * ptrWidth ≤ memOff ((rows.length + 1) * ptrWidth) rows k ∧
      memOff ((rows.length + 1) * ptrWidth) rows k +
        ((rows.get ⟨k, hk⟩).length + 1) ≤ buflen ∧
      readStr (get_users ⟨true, true, true, false, rows⟩ buflen).writes
        (memOff ((rows.length + 1) * ptrWidth) rows k) buflen =
        rows.get ⟨k, hk⟩) := by
  cases rows with
  | nil =>
    have h8 : ¬ buflen < ptrWidth := by
      simp only [List.length_nil, bytesNeeded, ptrWidth] at hbl ⊢
      omega
    rw [show get_users ⟨true, true, true, false, []⟩ buflen =
        (if buflen < ptrWidth then
          ⟨.tryagain, some .erange, [], [.prepareStmt, .finalizeStmt]⟩
        else
          ⟨.success, none, [Wr.slot 0 none], [.prepareStmt, .finalizeStmt]⟩)
      from rfl, if_neg h8]
    refine ⟨rfl, by simp, by simp [slotVal], fun k hk => absurd hk (by simp)⟩
  | cons m ms =>
    have hpa : ((m :: ms).length + 1) * ptrWidth + bytesNeeded (m :: ms) ≤ buflen := hbl
    have h1 : ¬ buflen < ((m :: ms).length + 1) * ptrWidth := by omega
    have hpk := packLoop_ok_writes (m :: ms) 0 (((m :: ms).length + 1) * ptrWidth)
      (buflen - ((m :: ms).length + 1) * ptrWidth) (by omega)
    rw [show get_users ⟨true, true, true, false, m :: ms⟩ buflen =
        (if buflen < ((m :: ms).length + 1) * ptrWidth then
          ⟨.tryagain, some .erange, [], [.prepareStmt, .finalizeStmt]⟩
        else if (packLoop 0 (((m :: ms).length + 1) * ptrWidth)
            (buflen - ((m :: ms).length + 1) * ptrWidth) (m :: ms)).ok = true then
          ⟨.success, none, (packLoop 0 (((m :: ms).length + 1) * ptrWidth)
            (buflen - ((m :: ms).length + 1) * ptrWidth) (m :: ms)).writes,
            [.prepareStmt, .finalizeStmt]⟩
        else
          ⟨.tryagain, some .erange, (packLoop 0 (((m :: ms).length + 1) * ptrWidth)
            (buflen - ((m :: ms).length + 1) * ptrWidth) (m :: ms)).writes,
            [.prepareStmt, .finalizeStmt]⟩)
      from rfl, if_neg h1, hpk]
    simp only [eq_self_iff_true, if_true]
    refine ⟨trivial, ?_, ?_, ?_⟩
    · rw [packWrites_getLast]
      simp
    · have := slotVal_packWrites_last (m :: ms) 0 (((m :: ms).length + 1) * ptrWidth)
      simpa using this
    · intro k hk
      have hsv := slotVal_packWrites_lt (m :: ms) 0
        (((m :: ms).length + 1) * ptrWidth) k hk
      have hle := memOff_le (m :: ms) (((m :: ms).length + 1) * ptrWidth) k hk
      have hge := memOff_ge (m :: ms) (((m :: ms).length + 1) * ptrWidth) k
      refine ⟨by simpa using hsv, hge, by omega, ?_⟩
      exact readStr_packWrites (m :: ms) 0 (((m :: ms).length + 1) * ptrWidth)
        k hk buflen hnz (by omega)

/-- C4 witness: members `"ab"` (`[97, 98]`) and `"c"` (`[99]`), buffer of
exactly `3 * 8 + 5 = 29` bytes: success, slots at offsets 24 and 27, both
decoding back, terminator slot written last. -/
theorem claim_C4_round_trip_witness :
    (get_users ⟨true, true, true, false, [[97, 98], [99]]⟩ 29).status =
      .success ∧
    slotVal (get_users ⟨true, true, true, false, [[97, 98], [99]]⟩ 29).writes 0 =
      some (some 24) ∧
    readStr (get_users ⟨true, true, true, false, [[97, 98], [99]]⟩ 29).writes
      24 29 = [97, 98] ∧
    readStr (get_users ⟨true, true, true, false, [[97, 98], [99]]⟩ 29).writes
      27 29 = [99] ∧
    (get_users ⟨true, true, true, false, [[97, 98], [99]]⟩ 29).writes.getLast? =
      some (Wr.slot 2 none) := by
  have h := claim_C4_round_trip [[97, 98], [99]] 29 (by decide) (by decide)
  refine ⟨h.1, ?_, ?_, ?_, h.2.1⟩
  · have h0 := (h.2.2.2 0 (by decide)).1
    rwa [show memOff ((([[97, 98], [99]] : List (List Nat)).length + 1) * ptrWidth)
      [[97, 98], [99]] 0 = 24 from by decide] at h0
  · have h0 := (h.2.2.2 0 (by decide)).2.2.2
    rwa [show memOff ((([[97, 98], [99]] : List (List Nat)).length + 1) * ptrWidth)
      [[97, 98], [99]] 0 = 24 from by decide] at h0
  · have h1 := (h.2.2.2 1 (by decide)).2.2.2
    rwa [show memOff ((([[97, 98], [99]] : List (List Nat)).length + 1) * ptrWidth)
      [[97, 98], [99]] 1 = 27 from by decide] at h1

/-- C5: the growth algorithm of `initgroups_dyn`.  With a healthy store
and at least one row: growth doubles the capacity when no ceiling is set
(`limit <= 0`), sets it to `min(limit, 2 * capacity)` when a ceiling is set
and capacity is below it, and fails when capacity has reached the ceiling;
the call returns `TryAgain`/`ERANGE` exactly when the logical length would
have to exceed the ceiling, and in that case the returned `*start` equals
the ceiling — the count of ids collected so far. -/
theorem claim_C5_growth_algorithm (rows : List Int) (hne : rows ≠ [])
    (start size : Nat) (arr : List Int) (limit : Int)
    (h1 : start ≤ size) (h2 : arr.length = size) (h3 : 0 < size)
    (h4 : 0 < limit → (size : Int) ≤ limit) :
    ((nss_sqlite_initgroups_dyn ⟨true, true, true, true, true, false, rows⟩
        start size arr limit).status = .tryagain ↔
      0 < limit ∧ limit < (start : Int) + rows.length) ∧
    ((nss_sqlite_initgroups_dyn ⟨true, true, true, true, true, false, rows⟩
        start size arr limit).status = .tryagain →
      (nss_sqlite_initgroups_dyn ⟨true, true, true, true, true, false, rows⟩
        start size arr limit).errno = some .erange ∧
      (((nss_sqlite_initgroups_dyn ⟨true, true, true, true, true, false, rows⟩
        start size arr limit).start : Nat) : Int) = limit) ∧
    ((nss_sqlite_initgroups_dyn ⟨true, true, true, true, true, false, rows⟩
        start size arr limit).status = .tryagain ∨
      (nss_sqlite_initgroups_dyn ⟨true, true, true, true, true, false, rows⟩
        start size arr limit).status = .success) ∧
    (∀ st : IgSt, st.start = st.size →
      (limit ≤ 0 → (igGrow limit st).map IgSt.size = some (2 * st.size)) ∧
      (0 < limit → (st.size : Int) < limit →
        (igGrow limit st).map IgSt.size =
          some (min limit (2 * (st.size : Int))).toNat) ∧
      (0 < limit → limit ≤ (st.size : Int) → igGrow limit st = none)) := by
  have hgrowth : ∀ st : IgSt, st.start = st.size →
      (limit ≤ 0 → (igGrow limit st).map IgSt.size = some (2 * st.size)) ∧
      (0 < limit → (st.size : Int) < limit →
        (igGrow limit st).map IgSt.size =
          some (min limit (2 * (st.size : Int))).toNat) ∧
      (0 < limit → limit ≤ (st.size : Int) → igGrow limit st = none) := by
    intro st hss
    refine ⟨?_, ?_, ?_⟩
    · intro hle
      unfold igGrow
      rw [if_pos hss, if_neg (show ¬ 0 < limit by omega)]
      exact congrArg some rfl
    · intro hl hsl
      unfold igGrow
      rw [if_pos hss, if_pos hl, if_pos hsl]
      simp only []
      by_cases hlim2 : limit < 2 * (st.size : Int)
      · rw [if_pos hlim2]
        exact congrArg some (show limit.toNat =
          (min limit (2 * (st.size : Int))).toNat by omega)
      · rw [if_neg hlim2]
        exact congrArg some (show 2 * st.size =
          (min limit (2 * (st.size : Int))).toNat by omega)
    · intro hl hge
      unfold igGrow
      rw [if_pos hss, if_pos hl, if_neg (show ¬ (st.size : Int) < limit by omega)]
  obtain ⟨g, gs, rfl⟩ : ∃ g gs, rows = g :: gs := by
    cases rows with
    | nil => exact absurd rfl hne
    | cons g gs => exact ⟨g, gs, rfl⟩
  have hmaster := igLoop_master limit (g :: gs) ⟨start, size, arr⟩ h1 h2 h3 h4
  rcases hloop : igLoop limit (g :: gs) ⟨start, size, arr⟩ with st2 | st2
  · obtain ⟨e1, e2, e3, e4, e5, e6⟩ := hmaster.1 st2 hloop
    rw [show nss_sqlite_initgroups_dyn ⟨true, true, true, true, true, false, g :: gs⟩
        start size arr limit =
        (match igLoop limit (g :: gs) ⟨start, size, arr⟩ with
         | .done st => ⟨.success, none, st.start, st.start,
             reallocArr st.arr st.start,
             [.openConn, .prepareStmt, .finalizeStmt, .closeConn]⟩
         | .limited st => ⟨.tryagain, some .erange, st.start, st.size, st.arr,
             [.openConn, .prepareStmt, .finalizeStmt, .closeConn]⟩)
      from rfl, hloop]
    exact ⟨⟨fun hc => NssStatus.noConfusion hc, fun hc => absurd hc e6⟩,
      fun hc => NssStatus.noConfusion hc, .inr rfl, hgrowth⟩
  · obtain ⟨e1, e2, e3, e4⟩ := hmaster.2 st2 hloop
    rw [show nss_sqlite_initgroups_dyn ⟨true, true, true, true, true, false, g :: gs⟩
        start size arr limit =
        (match igLoop limit (g :: gs) ⟨start, size, arr⟩ with
         | .done st => ⟨.success, none, st.start, st.start,
             reallocArr st.arr st.start,
             [.openConn, .prepareStmt, .finalizeStmt, .closeConn]⟩
         | .limited st => ⟨.tryagain, some .erange, st.start, st.size, st.arr,
             [.openConn, .prepareStmt, .finalizeStmt, .closeConn]⟩)
      from rfl, hloop]
    exact ⟨⟨fun _ => ⟨e1, e4⟩, fun _ => rfl⟩, fun _ => ⟨rfl, e2⟩, .inl rfl, hgrowth⟩

/-- C5 witness: rows `[5, 6, 7]`, initial length 0, capacity 1, ceiling 2:
the call hits the ceiling and returns `TryAgain` with `*start = 2`, the
count collected. -/
theorem claim_C5_growth_algorithm_witness :
    (nss_sqlite_initgroups_dyn ⟨true, true, true, true, true, false, [5, 6, 7]⟩
        0 1 [0] 2).status = .tryagain ∧
    (nss_sqlite_initgroups_dyn ⟨true, true, true, true, true, false, [5, 6, 7]⟩
        0 1 [0] 2).start = 2 := by
  have h := claim_C5_growth_algorithm [5, 6, 7] (by decide) 0 1 [0] 2
    (by decide) (by decide) (by decide) (by decide)
  have hs := h.1.mpr (by decide)
  refine ⟨hs, ?_⟩
  have := (h.2.1 hs).2
  omega

/-- C6: growth preserves the prefix and exhaustion shrinks to fit.  With a
healthy store, at least one row, and a ceiling (if any) large enough for
all rows, `initgroups_dyn` succeeds; the final array is exactly the
originally filled prefix followed by the fetched ids in row order
(previously appended ids unchanged at their indices), and the final
capacity `*size` equals the final logical length `*start`, with the array
reallocated to exactly that length. -/
theorem claim_C6_growth_preserves_prefix (rows : List Int) (hne : rows ≠ [])
    (start size : Nat) (arr : List Int) (limit : Int)
    (h1 : start ≤ size) (h2 : arr.length = size) (h3 : 0 < size)
    (h4 : 0 < limit → (size : Int) ≤ limit)
    (h5 : 0 < limit → (start : Int) + rows.length ≤ limit) :
    (nss_sqlite_initgroups_dyn ⟨true, true, true, true, true, false, rows⟩
        start size arr limit).status = .success ∧
    (nss_sqlite_initgroups_dyn ⟨true, true, true, true, true, false, rows⟩
        start size arr limit).start = start + rows.length ∧
    (nss_sqlite_initgroups_dyn ⟨true, true, true, true, true, false, rows⟩
        start size arr limit).size =
      (nss_sqlite_initgroups_dyn ⟨true, true, true, true, true, false, rows⟩
        start size arr limit).start ∧
    (nss_sqlite_initgroups_dyn ⟨true, true, true, true, true, false, rows⟩
        start size arr limit).arr.length =
      (nss_sqlite_initgroups_dyn ⟨true, true, true, true, true, false, rows⟩
        start size arr limit).start ∧
    (nss_sqlite_initgroups_dyn ⟨true, true, true, true, true, false, rows⟩
        start size arr limit).arr = arr.take start ++ rows := by
  obtain ⟨g, gs, rfl⟩ : ∃ g gs, rows = g :: gs := by
    cases rows with
    | nil => exact absurd rfl hne
    | cons g gs => exact ⟨g, gs, rfl⟩
  have hmaster := igLoop_master limit (g :: gs) ⟨start, size, arr⟩ h1 h2 h3 h4
  rcases hloop : igLoop limit (g :: gs) ⟨start, size, arr⟩ with st2 | st2
  · obtain ⟨e1, e2, e3, e4, e5, e6⟩ := hmaster.1 st2 hloop
    rw [show nss_sqlite_initgroups_dyn ⟨true, true, true, true, true, false, g :: gs⟩
        start size arr limit =
        (match igLoop limit (g :: gs) ⟨start, size, arr⟩ with
         | .done st => ⟨.success, none, st.start, st.start,
             reallocArr st.arr st.start,
             [.openConn, .prepareStmt, .finalizeStmt, .closeConn]⟩
         | .limited st => ⟨.tryagain, some .erange, st.start, st.size, st.arr,
             [.openConn, .prepareStmt, .finalizeStmt, .closeConn]⟩)
      from rfl, hloop]
    refine ⟨rfl, e1, rfl, reallocArr_length _ _, ?_⟩
    show reallocArr st2.arr st2.start = arr.take start ++ (g :: gs)
    rw [reallocArr_of_le st2.arr st2.start (by omega)]
    exact e5
  · obtain ⟨e1, e2, e3, e4⟩ := hmaster.2 st2 hloop
    exact absurd (h5 e1) (not_le.mpr e4)

/-- C6 witness: rows `[5, 6]`, initial length 0, capacity 1, no ceiling:
success with final length 2, final capacity 2 and array exactly `[5, 6]`. -/
theorem claim_C6_growth_preserves_prefix_witness :
    (nss_sqlite_initgroups_dyn ⟨true, true, true, true, true, false, [5, 6]⟩
        0 1 [0] 0).status = .success ∧
    (nss_sqlite_initgroups_dyn ⟨true, true, true, true, true, false, [5, 6]⟩
        0 1 [0] 0).start = 2 ∧
    (nss_sqlite_initgroups_dyn ⟨true, true, true, true, true, false, [5, 6]⟩
        0 1 [0] 0).arr = [5, 6] := by
  have h := claim_C6_growth_preserves_prefix [5, 6] (by decide) 0 1 [0] 0
    (by decide) (by decide) (by decide) (by decide) (by decide)
  refine ⟨h.1, by rw [h.2.1]; decide, by rw [h.2.2.2.2]; decide⟩

/-- C1 (failing evaluation): enumerating table `[1, 2]`, the first
`getgrent_r` call fails retryably on record 1 and caches it, but a second
call whose buffer is *still* too small falls through past the retry block,
advances the row cursor to record 2 and overwrites the cache; the third
call with a sufficient buffer then delivers record 2 — record 1 is skipped
forever, contradicting the claimed retry continuation. -/
theorem claim_C1_retry_skips_record :
    (nss_sqlite_getgrent_r ⟨true, true, true, [1, 2]⟩ .ok .erange
        ⟨false, [], false, 0⟩).status = .tryagain ∧
    (nss_sqlite_getgrent_r ⟨true, true, true, [1, 2]⟩ .ok .erange
        ⟨false, [], false, 0⟩).st.entry = 1 ∧
    (nss_sqlite_getgrent_r ⟨true, true, true, [1, 2]⟩ .erange .erange
        (nss_sqlite_getgrent_r ⟨true, true, true, [1, 2]⟩ .ok .erange
          ⟨false, [], false, 0⟩).st).status = .tryagain ∧
    (nss_sqlite_getgrent_r ⟨true, true, true, [1, 2]⟩ .ok .ok
        (nss_sqlite_getgrent_r ⟨true, true, true, [1, 2]⟩ .erange .erange
          (nss_sqlite_getgrent_r ⟨true, true, true, [1, 2]⟩ .ok .erange
            ⟨false, [], false, 0⟩).st).st).status = .success ∧
    (nss_sqlite_getgrent_r ⟨true, true, true, [1, 2]⟩ .ok .ok
        (nss_sqlite_getgrent_r ⟨true, true, true, [1, 2]⟩ .erange .erange
          (nss_sqlite_getgrent_r ⟨true, true, true, [1, 2]⟩ .ok .erange
            ⟨false, [], false, 0⟩).st).st).delivered = some 2 := by
  decide

/-- C2 (failing evaluation): with a healthy store and a query matching no
row, `_nss_sqlite_getgrnam_r` returns `NotFound` after opening the
connection and preparing the statement but never finalizes or closes them
(`groups.c` lines 207–211) — a leak on a routine exit path.  Additionally,
`get_users` closes the *caller's* connection when the query text cannot be
loaded (line 417), violating release-by-opening-scope. -/
theorem claim_C2_step_exit_leaks :
    nss_sqlite_getgrnam_r ⟨true, true, true, true, .done, .ok⟩ =
      ⟨.notfound, [.openConn, .prepareStmt]⟩ ∧
    nss_sqlite_getgrgid_r ⟨true, true, true, true, .done, .ok⟩ =
      ⟨.notfound, [.openConn, .prepareStmt]⟩ ∧
    (nss_sqlite_initgroups_dyn ⟨true, true, true, true, true, false, []⟩
        0 4 [0, 0, 0, 0] 0).evs = [.openConn, .prepareStmt] ∧
    get_users ⟨false, true, true, false, []⟩ 64 =
      ⟨.unavail, none, [], [.closeConn]⟩ := by
  decide

/-- C8 (failing evaluation): a row is fetched but its marshal
(`fill_group`) fails with a store-level `Unavailable`; `getgrent_r`
nevertheless returns `NSS_STATUS_SUCCESS` (`groups.c` line 155 returns
success unconditionally when the failure is not `TRYAGAIN`/`ERANGE`),
silently swallowing the error and handing the caller an unfilled buffer. -/
theorem claim_C8_error_swallowed :
    (nss_sqlite_getgrent_r ⟨true, true, true, []⟩ .ok .unavail
        ⟨true, [7], false, 0⟩).status = .success ∧
    (nss_sqlite_getgrent_r ⟨true, true, true, []⟩ .ok .unavail
        ⟨true, [7], false, 0⟩).delivered = none := by
  decide

/-- C9 (failing evaluation): at end of set `getgrent_r` does return the
`NotFound` end signal and nulls `grent_data.pDb` (so the next open
reconstructs the cursor), but it performs no `sqlite3_finalize` and no
`sqlite3_close` (`groups.c` line 138) — the statement and connection are
leaked, not released as the claim states. -/
theorem claim_C9_end_of_set_leak :
    (nss_sqlite_getgrent_r ⟨true, true, true, []⟩ .ok .ok
        ⟨true, [], false, 0⟩).status = .notfound ∧
    (nss_sqlite_getgrent_r ⟨true, true, true, []⟩ .ok .ok
        ⟨true, [], false, 0⟩).st.openDb = false ∧
    (nss_sqlite_getgrent_r ⟨true, true, true, []⟩ .ok .ok
        ⟨true, [], false, 0⟩).evs = [.lockM, .unlockM] := by
  decide

/-- C10 (failing evaluation): `_nss_sqlite_setgrent` acquires the mutex
and then returns `Unavailable` on the open-failure path without ever
calling `pthread_mutex_unlock` (`groups.c` lines 69–71; likewise lines
73–77 and 78–84) — the lock is still held after the operation returns. -/
theorem claim_C10_setgrent_keeps_lock :
    (nss_sqlite_setgrent ⟨false, true, true, []⟩ ⟨false, [], false, 0⟩).status
        = .unavail ∧
    (nss_sqlite_setgrent ⟨false, true, true, []⟩ ⟨false, [], false, 0⟩).evs
        = [.lockM] ∧
    (nss_sqlite_setgrent ⟨true, false, true, []⟩ ⟨false, [], false, 0⟩).evs
        = [.lockM, .openConn, .closeConn] ∧
    (nss_sqlite_setgrent ⟨true, true, false, []⟩ ⟨false, [], false, 0⟩).evs
        = [.lockM, .openConn, .closeConn] := by
  decide

end NssSqlite3
